import Mathlib

/-!
Verification of pylibschc (SCHC compression/fragmentation bindings).

This file shallowly embeds the Python/Cython wrapper code of
`src/pylibschc/libschc.pyx` together with the parts of the rule store that
live in `src/src/rules.c`.  The libSCHC C engine itself (`schc_compress`,
`schc_decompress`, `bit_operations.c`, `schc_input`, `schc_reassemble`) is
not part of the repository sources; where a property depends on it, the
missing function is modelled from the specification and marked as such in
its doc comment, or abstracted into a function parameter of the embedding.

Machine integers are modelled as `Nat`/`Int` with explicit `% 2^w` at the
places where the Cython code performs C casts.  Python exceptions are
modelled with `Except PyErr`.
-/

namespace PySchc

/-- Python exception kinds raised by the wrapper code. -/
inductive PyErr where
  | valueError
  | overflowError
  | memoryError
  | assertionError
deriving DecidableEq, Repr

/-! ## Bit-level utilities

`bit_operations.c` of libSCHC is not among the sources; the bit codec used
below is modelled from the specification (§4.1): positions and lengths are
in bits, integers are read MSB-first, `bits_to_bytes(x) = (x+7)/8`. -/

/-- `BITS_TO_BYTES` macro of libSCHC (spec §4.1: byte-boundary rounding
rounds up). -/
def BITS_TO_BYTES (x : Nat) : Nat := (x + 7) / 8

/-- MAX_FIELD_LENGTH from `src/src/schc_config.h`. -/
def MAX_FIELD_LENGTH : Nat := 32

/-- IP6_FIELDS from `src/src/schc_config.h`. -/
def IP6_FIELDS : Nat := 14

/-- UDP_FIELDS from `src/src/schc_config.h`. -/
def UDP_FIELDS : Nat := 4

/-- COAP_FIELDS from `src/src/schc_config.h`. -/
def COAP_FIELDS : Nat := 16

/-- MAX_MTU_LENGTH from `src/src/schc_config.h`. -/
def MAX_MTU_LENGTH : Nat := 1280

/-- Interpret a bit list MSB-first as an unsigned integer. -/
def ofBitsMSB (bs : List Bool) : Nat :=
  bs.foldl (fun a b => 2 * a + (if b then 1 else 0)) 0

/-- Write `n` into `k` bits, MSB-first (truncating to `n % 2^k`). -/
def toBitsMSB : Nat → Nat → List Bool
  | 0, _ => []
  | k + 1, n => toBitsMSB k (n / 2) ++ [n % 2 == 1]

/-- Read one bit of a bit buffer; reads past the end of the buffer are
undefined behaviour in C and are modelled as `false`. -/
def bitGetD : List Bool → Nat → Bool
  | [], _ => false
  | b :: _, 0 => b
  | _ :: bs, i + 1 => bitGetD bs i

theorem length_toBitsMSB (k n : Nat) : (toBitsMSB k n).length = k := by
  induction k generalizing n with
  | zero => rfl
  | succ k ih => simp [toBitsMSB, ih]

theorem ofBitsMSB_append_bit (l : List Bool) (b : Bool) :
    ofBitsMSB (l ++ [b]) = 2 * ofBitsMSB l + (if b then 1 else 0) := by
  simp [ofBitsMSB, List.foldl_append]

theorem ofBitsMSB_toBitsMSB (k n : Nat) : ofBitsMSB (toBitsMSB k n) = n % 2 ^ k := by
  induction k generalizing n with
  | zero => simp [toBitsMSB, ofBitsMSB, Nat.mod_one]
  | succ k ih =>
    rw [toBitsMSB, ofBitsMSB_append_bit, ih]
    have hdm2 := Nat.div_add_mod n 2
    have hm2 : n % 2 < 2 := Nat.mod_lt _ (by omega)
    have hdiv : n / 2 % 2 ^ k = n % (2 * 2 ^ k) / 2 := by
      rw [Nat.mod_mul_right_div_self]
    have hpow : 2 ^ (k + 1) = 2 * 2 ^ k := by ring
    rw [hpow, hdiv]
    have hmod2 : n % (2 * 2 ^ k) % 2 = n % 2 := Nat.mod_mod_of_dvd n ⟨2 ^ k, rfl⟩
    have hdm := Nat.div_add_mod (n % (2 * 2 ^ k)) 2
    by_cases hb : n % 2 = 1
    · simp only [hb, beq_self_eq_true, if_true]
      omega
    · have : (n % 2 == 1) = false := by
        simp [Nat.beq_eq_true_eq, hb]
      simp only [this, Bool.false_eq_true, if_false]
      omega

/-! ## Spec-modelled compression engine

`schc_compress`/`schc_decompress` live in libSCHC's `compressor.c`, which is
not among the repository sources (the sources only contain their Cython
callers in `src/pylibschc/libschc.pyx`).  The engine below is modelled from
the specification: §4.2 (Matching Operators and CDA actions), §4.3 (rule
selection in configured order, first full match wins, rule-ID prefix,
uncompressed fallback) and §6 (wire format
`[rule_id][compressed residual fields in rule field order]`).
Packets and buffers are bit lists; `COMPUTE_*`/`*_IID` actions derive their
value from outside the bit stream and are outside this model. -/

/-- Rule direction (wraps the `direction` enum of libSCHC). -/
inductive Dir where
  | up
  | down
  | bi
deriving DecidableEq, Repr

/-- Matching operators (spec §4.2). -/
inductive MOp where
  | moEqual
  | moIgnore
  | moMSB
  | moMatchmap
deriving DecidableEq, Repr

/-- Compression/decompression actions of the bit codec (spec §4.2). -/
inductive CAct where
  | notSent
  | valueSent
  | mappingSent
  | lsb
deriving DecidableEq, Repr

/-- Fuel-driven ceiling base-2 logarithm (`fuel ≥ n` suffices). -/
def clog2Fuel : Nat → Nat → Nat
  | 0, _ => 0
  | fuel + 1, n => if n ≤ 1 then 0 else clog2Fuel fuel ((n + 1) / 2) + 1

/-- Ceiling base-2 logarithm: the number of bits needed to express an
index into `n` entries (spec §4.2: match-map index compressed to
`ceil(log2(mo_param))` bits). -/
def clog2 (n : Nat) : Nat := clog2Fuel n n

theorem le_pow_clog2Fuel (fuel n : Nat) (h : n ≤ fuel) :
    n ≤ 2 ^ clog2Fuel fuel n := by
  induction fuel generalizing n with
  | zero => exact le_trans h (Nat.zero_le _)
  | succ fuel ih =>
    by_cases h1 : n ≤ 1
    · simp [clog2Fuel, h1]
    · have hdm := Nat.div_add_mod (n + 1) 2
      have hmlt : (n + 1) % 2 < 2 := Nat.mod_lt _ (by omega)
      have hle : (n + 1) / 2 ≤ fuel := by omega
      have := ih ((n + 1) / 2) hle
      simp only [clog2Fuel, h1, if_false]
      have hp : 2 ^ (clog2Fuel fuel ((n + 1) / 2) + 1) =
          2 * 2 ^ clog2Fuel fuel ((n + 1) / 2) := by ring
      omega

theorem le_pow_clog2 (n : Nat) : n ≤ 2 ^ clog2 n :=
  le_pow_clog2Fuel n n (Nat.le_refl n)

/-- Modelled from the spec: one field descriptor of a compression rule
(spec §3 FieldDescriptor), restricted to the bit-codec MO/CDA pairs. -/
structure SpecField where
  fieldLength : Nat
  moParamLength : Nat
  dir : Dir
  mo : MOp
  action : CAct
  targetValue : List Bool
deriving DecidableEq, Repr

/-- Modelled from the spec: the match-map value set held in `targetValue`
(`moParamLength` candidate values of `fieldLength` bits each, spec §4.2). -/
def mmValues (f : SpecField) : List (List Bool) :=
  (List.range f.moParamLength).map
    (fun i => (f.targetValue.drop (i * f.fieldLength)).take f.fieldLength)

/-- Index of the first occurrence of `v` in `l` (0 when absent at the end). -/
def mmIdx : List (List Bool) → List Bool → Nat
  | [], _ => 0
  | x :: xs, v => if x = v then 0 else mmIdx xs v + 1

/-- Modelled from the spec: does a field descriptor match a candidate field
value (spec §4.2, the four matching operators)? -/
def matchField (f : SpecField) (v : List Bool) : Bool :=
  match f.mo with
  | .moEqual => v == f.targetValue.take f.fieldLength
  | .moIgnore => true
  | .moMSB => v.take f.moParamLength == f.targetValue.take f.moParamLength
  | .moMatchmap => decide (v ∈ mmValues f)

/-- Modelled from the spec: the residual bits transmitted for a matched
field (spec §4.2, CDA actions). -/
def residualBits (f : SpecField) (v : List Bool) : List Bool :=
  match f.action with
  | .notSent => []
  | .valueSent => v
  | .mappingSent => toBitsMSB (clog2 f.moParamLength) (mmIdx (mmValues f) v)
  | .lsb => v.drop f.moParamLength

/-- Modelled from the spec: reconstruct one field from the compressed
stream, returning the field value and the unconsumed rest (spec §4.2,
decompression mirror operation). -/
def fieldReconstruct (f : SpecField) (bits : List Bool) :
    Option (List Bool × List Bool) :=
  match f.action with
  | .notSent => some (f.targetValue.take f.fieldLength, bits)
  | .valueSent =>
    if f.fieldLength ≤ bits.length then
      some (bits.take f.fieldLength, bits.drop f.fieldLength)
    else none
  | .mappingSent =>
    let k := clog2 f.moParamLength
    if k ≤ bits.length then
      match (mmValues f).get? (ofBitsMSB (bits.take k)) with
      | some v => some (v, bits.drop k)
      | none => none
    else none
  | .lsb =>
    let r := f.fieldLength - f.moParamLength
    if r ≤ bits.length then
      some (f.targetValue.take f.moParamLength ++ bits.take r, bits.drop r)
    else none

/-- Modelled from the spec: a compression rule (spec §3); the layer split
(IPv6/UDP/CoAP) is flattened into one ordered field list, the rule ID is a
bit string whose length is its `rule_id_size_bits`. -/
structure SpecRule where
  ruleId : List Bool
  fields : List SpecField
deriving DecidableEq, Repr

/-- The fields of a rule that are active in direction `dir`
(a descriptor with direction BI applies both ways, spec §4.3/§4.2). -/
def activeFields (r : SpecRule) (dir : Dir) : List SpecField :=
  r.fields.filter (fun f => f.dir == .bi || f.dir == dir)

/-- Modelled from the spec: compress the header fields `fs` against the
packet bits, returning the concatenated residuals followed by the verbatim
payload, or `none` when some field does not match (spec §4.3: a rule
matches only if every field it declares for the direction matches). -/
def compressFields : List SpecField → List Bool → Option (List Bool)
  | [], rest => some rest
  | f :: fs, bits =>
    if f.fieldLength ≤ bits.length ∧ matchField f (bits.take f.fieldLength) then
      (compressFields fs (bits.drop f.fieldLength)).map
        (fun c => residualBits f (bits.take f.fieldLength) ++ c)
    else none

/-- Modelled from the spec: reconstruct the original packet from the
compressed stream, walking each field in rule order (spec §4.3). -/
def reconFields : List SpecField → List Bool → Option (List Bool)
  | [], rest => some rest
  | f :: fs, bits =>
    match fieldReconstruct f bits with
    | some (v, rest) =>
      match reconFields fs rest with
      | some tail => some (v ++ tail)
      | none => none
    | none => none

/-- Does rule `r` fully match packet `p` in direction `dir`? -/
def ruleMatches (r : SpecRule) (dir : Dir) (p : List Bool) : Bool :=
  (compressFields (activeFields r dir) p).isSome

/-- Modelled from the spec: the per-device rule context (spec §3 Device);
`ruleIdSize` is the device's negotiated rule-ID size in bits. -/
structure SpecDevice where
  ruleIdSize : Nat
  uncompRuleId : Nat
  rules : List SpecRule
deriving DecidableEq, Repr

/-- Modelled from the spec: `schc_compress` (spec §4.3) — iterate the
device's rules in configured order, first full match wins; on a match emit
`[rule_id][residuals][payload]`, otherwise fall back to
`[uncompressed_rule_id][packet]`.  The Bool is `true` for COMPRESSED. -/
def specCompress (d : SpecDevice) (dir : Dir) (p : List Bool) :
    Bool × List Bool :=
  match d.rules.find? (fun r => ruleMatches r dir p) with
  | some r => (true, r.ruleId ++ (compressFields (activeFields r dir) p).getD [])
  | none => (false, toBitsMSB d.ruleIdSize d.uncompRuleId ++ p)

/-- Modelled from the spec: `schc_decompress` (spec §4.3) — read the
rule-ID prefix, look up the rule by ID, reconstruct field by field; the
uncompressed rule ID means a verbatim copy; an unknown rule ID is a hard
failure. -/
def specDecompress (d : SpecDevice) (dir : Dir) (bits : List Bool) :
    Option (List Bool) :=
  if d.ruleIdSize ≤ bits.length then
    let rid := bits.take d.ruleIdSize
    let rest := bits.drop d.ruleIdSize
    match d.rules.find? (fun r => r.ruleId == rid) with
    | some r => reconFields (activeFields r dir) rest
    | none =>
      if rid = toBitsMSB d.ruleIdSize d.uncompRuleId then some rest else none
  else none

/-- Well-formedness of a field descriptor: the CDA action is paired with
the matching operator that makes it invertible (spec §4.2 pairs NOT_SENT
with EQUAL reconstruction from the rule, MAPPING_SENT with MATCHMAP, LSB
with MSB), and the stored `targetValue` is large enough for the declared
sizes (spec §3: target-value length determined by bit_length/mo_param). -/
def wfField (f : SpecField) : Prop :=
  (f.action = .notSent → f.mo = .moEqual) ∧
  (f.action = .mappingSent →
    f.mo = .moMatchmap ∧ 0 < f.fieldLength ∧
    f.moParamLength * f.fieldLength ≤ f.targetValue.length) ∧
  (f.action = .lsb →
    f.mo = .moMSB ∧ f.moParamLength ≤ f.fieldLength ∧
    f.moParamLength ≤ f.targetValue.length)

instance (f : SpecField) : Decidable (wfField f) := by
  unfold wfField
  infer_instance

/-- Well-formedness of a device's rule context: all rule IDs have the
device's rule-ID size, are pairwise distinct and differ from the
uncompressed rule ID, and every field descriptor is well-formed. -/
def wfDevice (d : SpecDevice) : Prop :=
  (∀ r ∈ d.rules, r.ruleId.length = d.ruleIdSize ∧
    r.ruleId ≠ toBitsMSB d.ruleIdSize d.uncompRuleId ∧
    ∀ f ∈ r.fields, wfField f) ∧
  d.rules.Pairwise (fun r₁ r₂ => r₁.ruleId ≠ r₂.ruleId)

instance (d : SpecDevice) : Decidable (wfDevice d) := by
  unfold wfDevice
  infer_instance

theorem length_mmValues (f : SpecField) : (mmValues f).length = f.moParamLength := by
  simp [mmValues]

theorem mmIdx_lt_length {l : List (List Bool)} {v : List Bool} (h : v ∈ l) :
    mmIdx l v < l.length := by
  induction l with
  | nil => cases h
  | cons x xs ih =>
    by_cases hx : x = v
    · simp [mmIdx, hx]
    · have hv : v ∈ xs := by
        rcases List.mem_cons.mp h with h1 | h1
        · exact absurd h1.symm hx
        · exact h1
      simp only [mmIdx, hx, if_false, List.length_cons]
      exact Nat.succ_lt_succ (ih hv)

theorem get?_mmIdx {l : List (List Bool)} {v : List Bool} (h : v ∈ l) :
    l.get? (mmIdx l v) = some v := by
  induction l with
  | nil => cases h
  | cons x xs ih =>
    by_cases hx : x = v
    · simp [mmIdx, hx]
    · have hv : v ∈ xs := by
        rcases List.mem_cons.mp h with h1 | h1
        · exact absurd h1.symm hx
        · exact h1
      simp only [mmIdx, hx, if_false]
      simpa using ih hv

/-- A matched field is reconstructed exactly from its residual bits. -/
theorem fieldReconstruct_residual (f : SpecField) (hwf : wfField f)
    (v rest : List Bool) (hv : v.length = f.fieldLength)
    (hm : matchField f v = true) :
    fieldReconstruct f (residualBits f v ++ rest) = some (v, rest) := by
  obtain ⟨hns, hms, hlsb⟩ := hwf
  cases hact : f.action with
  | notSent =>
    have hmo := hns hact
    rw [matchField, hmo] at hm
    have hveq : v = f.targetValue.take f.fieldLength := eq_of_beq hm
    simp [fieldReconstruct, residualBits, hact, hveq]
  | valueSent =>
    have hlen : f.fieldLength ≤ (v ++ rest).length := by
      simp [List.length_append, hv]
    simp only [fieldReconstruct, residualBits, hact, hlen, if_true]
    rw [List.take_left' hv, List.drop_left' hv]
  | mappingSent =>
    obtain ⟨hmo, hpos, _⟩ := hms hact
    rw [matchField, hmo] at hm
    have hmem : v ∈ mmValues f := of_decide_eq_true hm
    set k := clog2 f.moParamLength with hk
    set idx := mmIdx (mmValues f) v with hidx
    have hidxlt : idx < f.moParamLength := by
      have := mmIdx_lt_length hmem
      rwa [length_mmValues] at this
    have hidpow : idx < 2 ^ k := by
      have h1 : f.moParamLength ≤ 2 ^ k := le_pow_clog2 _
      omega
    have hreslen : (toBitsMSB k idx).length = k := length_toBitsMSB k idx
    simp only [residualBits, hact, fieldReconstruct, ← hidx, ← hk]
    have hklen : k ≤ (toBitsMSB k idx ++ rest).length := by
      simp [List.length_append, hreslen]
    simp only [hklen, if_true]
    rw [List.take_left' hreslen, List.drop_left' hreslen]
    rw [ofBitsMSB_toBitsMSB, Nat.mod_eq_of_lt hidpow, get?_mmIdx hmem]
  | lsb =>
    obtain ⟨hmo, hle, _⟩ := hlsb hact
    rw [matchField, hmo] at hm
    have hpref : v.take f.moParamLength = f.targetValue.take f.moParamLength :=
      eq_of_beq hm
    have hreslen : (v.drop f.moParamLength).length =
        f.fieldLength - f.moParamLength := by
      simp [List.length_drop, hv]
    simp only [residualBits, hact, fieldReconstruct]
    have hrlen : f.fieldLength - f.moParamLength ≤
        (v.drop f.moParamLength ++ rest).length := by
      simp [List.length_append, hreslen]
    simp only [hrlen, if_true]
    rw [List.take_left' hreslen, List.drop_left' hreslen, ← hpref,
      List.take_append_drop]

/-- Compressing a packet against a list of well-formed field descriptors
and reconstructing from the residual stream is the identity. -/
theorem reconFields_compressFields {fs : List SpecField}
    (hwf : ∀ f ∈ fs, wfField f) :
    ∀ {p c : List Bool}, compressFields fs p = some c →
      reconFields fs c = some p := by
  induction fs with
  | nil =>
    intro p c h
    simp only [compressFields, Option.some_inj] at h
    simp [reconFields, h]
  | cons f fs ih =>
    intro p c h
    simp only [compressFields] at h
    split at h
    · rename_i hcond
      obtain ⟨hlen, hmatch⟩ := hcond
      rcases Option.map_eq_some'.mp h with ⟨c', hc', rfl⟩
      have hvlen : (p.take f.fieldLength).length = f.fieldLength := by
        simp [List.length_take, Nat.min_eq_left hlen]
      have hfield := fieldReconstruct_residual f (hwf f (by simp))
        (p.take f.fieldLength) c' hvlen hmatch
      have htail := ih (fun g hg => hwf g (by simp [hg])) hc'
      simp only [reconFields, hfield, htail, List.take_append_drop]
    · exact absurd h (by simp)

/-- With pairwise-distinct rule IDs, looking a rule up by its own ID finds
that rule. -/
theorem find?_ruleId {rules : List SpecRule} {r : SpecRule} (hmem : r ∈ rules)
    (hdist : rules.Pairwise (fun a b => a.ruleId ≠ b.ruleId)) :
    rules.find? (fun x => x.ruleId == r.ruleId) = some r := by
  induction rules with
  | nil => cases hmem
  | cons a as ih =>
    rcases List.mem_cons.mp hmem with rfl | hmem'
    · simp [List.find?]
    · have hne : a.ruleId ≠ r.ruleId :=
        (List.pairwise_cons.mp hdist).1 r hmem'
      have : (a.ruleId == r.ruleId) = false := by
        simpa using hne
      simp only [List.find?, this]
      exact ih hmem' (List.pairwise_cons.mp hdist).2

/-- C1: For every packet P (as bits), every device D with a well-formed
rule context that has a compression rule matching P, and every direction,
decompressing the output of `specCompress` yields exactly P. -/
theorem compress_decompress_roundtrip (d : SpecDevice) (dir : Dir)
    (pkt : List Bool) (hwf : wfDevice d)
    (hmatch : ∃ r ∈ d.rules, ruleMatches r dir pkt = true) :
    specDecompress d dir (specCompress d dir pkt).2 = some pkt := by
  have hfind : (d.rules.find? (fun r => ruleMatches r dir pkt)).isSome := by
    rw [List.find?_isSome]
    exact hmatch
  obtain ⟨r₀, hr₀⟩ := Option.isSome_iff_exists.mp hfind
  have hr₀mem : r₀ ∈ d.rules := List.mem_of_find?_eq_some hr₀
  have hr₀match : ruleMatches r₀ dir pkt = true := by
    simpa using List.find?_some hr₀
  obtain ⟨c, hc⟩ := Option.isSome_iff_exists.mp hr₀match
  obtain ⟨hids, hdist⟩ := hwf
  obtain ⟨hidlen, _, hfields⟩ := hids r₀ hr₀mem
  simp only [specCompress, hr₀, hc, Option.getD_some]
  have hsz : d.ruleIdSize ≤ (r₀.ruleId ++ c).length := by
    simp [List.length_append, hidlen]
  have htake : (r₀.ruleId ++ c).take d.ruleIdSize = r₀.ruleId :=
    List.take_left' hidlen
  have hdrop : (r₀.ruleId ++ c).drop d.ruleIdSize = c :=
    List.drop_left' hidlen
  have hfound : d.rules.find? (fun x =>
      x.ruleId == r₀.ruleId) = some r₀ := find?_ruleId hr₀mem hdist
  simp only [specDecompress, hsz, if_true, htake, hdrop, hfound]
  refine reconFields_compressFields ?_ hc
  intro f hf
  exact hfields f (List.mem_of_mem_filter hf)

/-- Witness data: an EQUAL/NOT_SENT IPv6-style field. -/
def wF1 : SpecField :=
  { fieldLength := 4, moParamLength := 0, dir := .bi, mo := .moEqual,
    action := .notSent, targetValue := [true, false, true, false] }

/-- Witness data: an MSB(4)/LSB field. -/
def wF2 : SpecField :=
  { fieldLength := 8, moParamLength := 4, dir := .bi, mo := .moMSB,
    action := .lsb,
    targetValue := [true, true, false, false, false, false, false, false] }

/-- Witness data: a MATCHMAP/MAPPING_SENT field with two 2-bit values. -/
def wF3 : SpecField :=
  { fieldLength := 2, moParamLength := 2, dir := .bi, mo := .moMatchmap,
    action := .mappingSent, targetValue := [false, true, true, false] }

/-- Witness data: an IGNORE/VALUE_SENT field. -/
def wF4 : SpecField :=
  { fieldLength := 3, moParamLength := 0, dir := .bi, mo := .moIgnore,
    action := .valueSent, targetValue := [] }

/-- Witness data: one compression rule with rule ID 1 in 3 bits. -/
def wRule : SpecRule :=
  { ruleId := [false, false, true], fields := [wF1, wF2, wF3, wF4] }

/-- Witness data: a device with one compression rule. -/
def wDev : SpecDevice :=
  { ruleIdSize := 3, uncompRuleId := 7, rules := [wRule] }

/-- Witness data: a 19-bit packet (17 header bits plus 2 payload bits)
matched by `wRule`. -/
def wPkt : List Bool :=
  [true, false, true, false,
   true, true, false, false, true, false, true, true,
   true, false,
   false, false, true,
   true, true]

/-- Witness for C1 at a concrete device, packet and direction. -/
theorem compress_decompress_roundtrip_witness :
    specDecompress wDev Dir.up (specCompress wDev Dir.up wPkt).2 =
      some wPkt :=
  compress_decompress_roundtrip wDev Dir.up wPkt (by decide) (by decide)

/-! ## BitArray (wraps `schc_bitarray_t`, `src/pylibschc/libschc.pyx`)

The buffer is modelled at bit granularity (`bits`); `size`, `len`,
`bitLen`, `offset` and `padding` mirror the `size` attribute and the
`len`, `bit_len`, `offset` and `padding` members of `schc_bitarray_t`.
The C members `len` and `bit_len` are `uint16_t`/`uint32_t`; `bit_len`'s
32-bit width matters for the `get_bits`/`copy_bits` bound checks. -/

structure PyBitArray where
  bits : List Bool
  size : Nat
  len : Nat
  bitLen : Nat
  offset : Nat
  padding : Nat
deriving DecidableEq, Repr

/-- A byte sequence as a bit list, MSB-first within each byte. -/
def bytesToBits (bs : List Nat) : List Bool :=
  (bs.map (fun b => toBitsMSB 8 b)).flatten

/-- The constructor argument of `BitArray.__cinit__`: Python `bytes` or a
non-negative `int`. -/
inductive BAInit where
  | ofBytes (b : List Nat)
  | ofNat (n : Nat)

/-- `BitArray.__cinit__` (libschc.pyx:1217-1235): for `bytes` input the
buffer is a copy of the bytes, `len = size = len(n)`, `bit_len = size*8`;
for `int` input an all-zero buffer of `n` bytes with `bit_len = 0`;
`offset` and `padding` are zeroed in both cases. -/
def bitArrayInit : BAInit → PyBitArray
  | .ofBytes b =>
    { bits := bytesToBits b, size := b.length, len := b.length,
      bitLen := b.length * 8, offset := 0, padding := 0 }
  | .ofNat n =>
    { bits := List.replicate (8 * n) false, size := n, len := n,
      bitLen := 0, offset := 0, padding := 0 }

/-- C9: constructor postcondition of `BitArray` for both input kinds:
a `bytes` value is copied into the buffer with `size = length = len(b)`,
`bit_length = 8*len(b)` and zero offset/padding; a non-negative `int` `n`
gives an all-zero buffer of `n` bytes with `bit_length = 0`. -/
theorem bitArray_cinit_postcondition (b : List Nat) (n : Nat) :
    (bitArrayInit (.ofBytes b)).bits = bytesToBits b ∧
    (bitArrayInit (.ofBytes b)).size = b.length ∧
    (bitArrayInit (.ofBytes b)).len = b.length ∧
    (bitArrayInit (.ofBytes b)).bitLen = 8 * b.length ∧
    (bitArrayInit (.ofBytes b)).offset = 0 ∧
    (bitArrayInit (.ofBytes b)).padding = 0 ∧
    (bitArrayInit (.ofNat n)).bits = List.replicate (8 * n) false ∧
    (bitArrayInit (.ofNat n)).size = n ∧
    (bitArrayInit (.ofNat n)).len = n ∧
    (bitArrayInit (.ofNat n)).bitLen = 0 ∧
    (bitArrayInit (.ofNat n)).offset = 0 ∧
    (bitArrayInit (.ofNat n)).padding = 0 := by
  refine ⟨rfl, rfl, rfl, ?_, rfl, rfl, rfl, rfl, rfl, rfl, rfl, rfl⟩
  simp [bitArrayInit, Nat.mul_comm]

/-- Read `n` consecutive bits starting at `pos` (reads past the end of the
source are undefined behaviour in C, modelled as `false`). -/
def readBits (src : List Bool) (pos : Nat) : Nat → List Bool
  | 0 => []
  | n + 1 => bitGetD src pos :: readBits src (pos + 1) n

/-- Overwrite the bits at `pos, pos+1, …` with `vals`; writes past the end
of the destination are dropped (mirroring that the C code never grows the
buffer). -/
def writeRange (bits : List Bool) (pos : Nat) : List Bool → List Bool
  | [] => bits
  | v :: vs => writeRange (bits.set pos v) (pos + 1) vs

/-- Modelled from the spec: `get_bits` of libSCHC's `bit_operations.c`
(not under the sources) — read `len` bits at bit position `pos` MSB-first
as an unsigned integer. -/
def cGetBits (bits : List Bool) (pos len : Nat) : Nat :=
  ofBitsMSB (readBits bits pos len)

/-- Modelled from the spec: `clear_bits` of libSCHC's `bit_operations.c`
(not under the sources) — clear `len` bits starting at bit `pos`. -/
def cClearBits (bits : List Bool) (pos len : Nat) : List Bool :=
  writeRange bits pos (List.replicate len false)

/-- Modelled from the spec: `copy_bits` of libSCHC's `bit_operations.c`
(not under the sources) — copy `len` bits from `src` (starting at
`srcPos`) into `dst` (starting at `dstPos`), bit for bit. -/
def cCopyBits (dst : List Bool) (dstPos : Nat) (src : List Bool)
    (srcPos len : Nat) : List Bool :=
  writeRange dst dstPos (readBits src srcPos len)

/-- `BitArray.get_bits` (libschc.pyx:1325-1352).  The bound check casts
`pos` to `uint32_t` (an out-of-range Python int raises `OverflowError`)
and `length` to `uint8_t`, and the C sum `(uint32_t)pos + (uint8_t)length`
wraps modulo 2^32. -/
def pyGetBits (ba : PyBitArray) (pos length : Int) : Except PyErr Nat :=
  if length < 0 ∨ 32 < length then .error .valueError
  else if pos < 0 then .error .valueError
  else if 2 ^ 32 ≤ pos then .error .overflowError
  else if ba.bitLen < (pos.toNat + length.toNat) % 2 ^ 32 then
    .error .valueError
  else .ok (cGetBits ba.bits pos.toNat length.toNat)

/-- `BitArray.copy_bits` (libschc.pyx:1354-1381).  Checks mirror
`get_bits` except that `length` is only checked for being non-negative
(its `uint8_t` cast raises `OverflowError` at 256 and above); on success
the target range is cleared and the source bits are copied in. -/
def pyCopyBits (ba : PyBitArray) (pos : Int) (data : List Nat)
    (length : Int) : Except PyErr PyBitArray :=
  if length < 0 then .error .valueError
  else if pos < 0 then .error .valueError
  else if 2 ^ 32 ≤ pos then .error .overflowError
  else if 2 ^ 8 ≤ length then .error .overflowError
  else if ba.bitLen < (pos.toNat + length.toNat) % 2 ^ 32 then
    .error .valueError
  else
    let cleared := cClearBits ba.bits pos.toNat length.toNat
    let written := cCopyBits cleared pos.toNat (bytesToBits data) 0 length.toNat
    .ok { ba with bits := written }

/-- C3: the wrap-around of `(uint32_t)pos + (uint8_t)length` lets
`pos = 2^32 - 1`, `length = 32` pass the bound check of a 4-byte
`BitArray` (bit_length 32) without any `ValueError`, although
`pos + length > bit_length`; `get_bits` then reads out of bounds. -/
theorem get_bits_wraparound_no_valueerror :
    pyGetBits (bitArrayInit (.ofBytes [0, 0, 0, 0])) (2 ^ 32 - 1) 32 =
      .ok 0 ∧
    ((2 : Int) ^ 32 - 1) + 32 >
      ((bitArrayInit (.ofBytes [0, 0, 0, 0])).bitLen : Int) :=
  ⟨rfl, by decide⟩

theorem length_readBits (src : List Bool) (pos n : Nat) :
    (readBits src pos n).length = n := by
  induction n generalizing pos with
  | zero => rfl
  | succ n ih => simp [readBits, ih]

theorem bitGetD_readBits (src : List Bool) (pos n i : Nat) (h : i < n) :
    bitGetD (readBits src pos n) i = bitGetD src (pos + i) := by
  induction n generalizing pos i with
  | zero => omega
  | succ n ih =>
    cases i with
    | zero => rfl
    | succ i =>
      have := ih (pos + 1) i (by omega)
      simp only [readBits, bitGetD, this]
      congr 1
      omega

theorem bitGetD_set_self (bits : List Bool) (i : Nat) (v : Bool)
    (h : i < bits.length) : bitGetD (bits.set i v) i = v := by
  induction bits generalizing i with
  | nil => simp at h
  | cons b bs ih =>
    cases i with
    | zero => rfl
    | succ i => exact ih i (by simpa using h)

theorem bitGetD_set_ne (bits : List Bool) (i j : Nat) (v : Bool)
    (h : i ≠ j) : bitGetD (bits.set i v) j = bitGetD bits j := by
  induction bits generalizing i j with
  | nil => rfl
  | cons b bs ih =>
    cases i with
    | zero =>
      cases j with
      | zero => exact absurd rfl h
      | succ j => rfl
    | succ i =>
      cases j with
      | zero => rfl
      | succ j => exact ih i j (by omega)

theorem set_of_length_le (bits : List Bool) (i : Nat) (v : Bool)
    (h : bits.length ≤ i) : bits.set i v = bits := by
  induction bits generalizing i with
  | nil => rfl
  | cons b bs ih =>
    cases i with
    | zero => simp at h
    | succ i =>
      simp only [List.set]
      rw [ih i (by simpa using h)]

theorem length_writeRange (bits : List Bool) (pos : Nat)
    (vals : List Bool) : (writeRange bits pos vals).length = bits.length := by
  induction vals generalizing bits pos with
  | nil => rfl
  | cons v vs ih =>
    simp [writeRange, ih, List.length_set]

theorem bitGetD_writeRange (bits vals : List Bool) (pos j : Nat) :
    bitGetD (writeRange bits pos vals) j =
      if pos ≤ j ∧ j < pos + vals.length ∧ j < bits.length then
        bitGetD vals (j - pos)
      else bitGetD bits j := by
  induction vals generalizing bits pos with
  | nil =>
    simp only [writeRange, List.length_nil]
    have hc : ¬ (pos ≤ j ∧ j < pos + 0 ∧ j < bits.length) := by omega
    rw [if_neg hc]
  | cons v vs ih =>
    simp only [writeRange, List.length_cons]
    rw [ih, List.length_set]
    by_cases hj : j = pos
    · subst hj
      have hc1 : ¬ (j + 1 ≤ j ∧ j < j + 1 + vs.length ∧
          j < bits.length) := by omega
      rw [if_neg hc1]
      by_cases hlen : j < bits.length
      · have hc2 : j ≤ j ∧ j < j + (vs.length + 1) ∧
            j < bits.length := by omega
        rw [if_pos hc2, Nat.sub_self]
        exact bitGetD_set_self bits j v hlen
      · have hc2 : ¬ (j ≤ j ∧ j < j + (vs.length + 1) ∧
            j < bits.length) := by omega
        rw [if_neg hc2]
        rw [set_of_length_le bits j v (by omega)]
    · rw [bitGetD_set_ne bits pos j v (fun h => hj h.symm)]
      by_cases hc : pos + 1 ≤ j ∧ j < pos + 1 + vs.length ∧ j < bits.length
      · have hc2 : pos ≤ j ∧ j < pos + (vs.length + 1) ∧
            j < bits.length := by omega
        rw [if_pos hc, if_pos hc2]
        have hsub : j - pos = (j - (pos + 1)) + 1 := by omega
        rw [hsub]
        rfl
      · have hc2 : ¬ (pos ≤ j ∧ j < pos + (vs.length + 1) ∧
            j < bits.length) := by
          intro hx
          exact hc ⟨by omega, by omega, hx.2.2⟩
        rw [if_neg hc, if_neg hc2]

theorem list_bool_ext (l₁ l₂ : List Bool) (hlen : l₁.length = l₂.length)
    (h : ∀ j, bitGetD l₁ j = bitGetD l₂ j) : l₁ = l₂ := by
  induction l₁ generalizing l₂ with
  | nil =>
    cases l₂ with
    | nil => rfl
    | cons b bs => simp at hlen
  | cons a as ih =>
    cases l₂ with
    | nil => simp at hlen
    | cons b bs =>
      have h0 := h 0
      simp only [bitGetD] at h0
      subst h0
      have : as = bs := by
        refine ih bs (by simpa using hlen) ?_
        intro j
        exact h (j + 1)
      rw [this]

/-- Writing back at `pos` exactly the bits that already stand at
`pos … pos+len-1` (after the clear pass of `copy_bits`) restores the
original buffer. -/
theorem clear_copy_writeback (bits src : List Bool) (pos len : Nat)
    (hsrc : ∀ i, i < len → bitGetD src i = bitGetD bits (pos + i)) :
    cCopyBits (cClearBits bits pos len) pos src 0 len = bits := by
  apply list_bool_ext
  · rw [cCopyBits, cClearBits, length_writeRange, length_writeRange]
  · intro j
    rw [cCopyBits, cClearBits, bitGetD_writeRange, bitGetD_writeRange]
    rw [length_writeRange, length_readBits, List.length_replicate]
    by_cases hin : pos ≤ j ∧ j < pos + len ∧ j < bits.length
    · rw [if_pos hin]
      rw [bitGetD_readBits src 0 len (j - pos) (by omega), Nat.zero_add]
      rw [hsrc (j - pos) (by omega)]
      have hpj : pos + (j - pos) = j := by omega
      rw [hpj]
    · rw [if_neg hin, if_neg hin]

/-- C4: with `pos` and `len` in range, writing back via `copy_bits` the
bytes that encode the bits previously read from `pos … pos+len-1` leaves
the whole `BitArray` state (buffer, bit_length, length, offset, padding)
unchanged; for `len ≥ 256` the `uint8_t` cast raises `OverflowError`
before anything is written, likewise leaving the state unchanged. -/
theorem copy_bits_writeback (ba : PyBitArray) (pos len : Nat)
    (data : List Nat) (hrange : pos + len ≤ ba.bitLen)
    (hb32 : ba.bitLen < 2 ^ 32)
    (hdata : ∀ i, i < len →
      bitGetD (bytesToBits data) i = bitGetD ba.bits (pos + i)) :
    ((len : Int) < 2 ^ 8 →
      pyCopyBits ba (pos : Int) data (len : Int) = .ok ba) ∧
    (2 ^ 8 ≤ (len : Int) →
      pyCopyBits ba (pos : Int) data (len : Int) =
        .error .overflowError) := by
  have hlen0 : ¬ ((len : Int) < 0) := by omega
  have hpos0 : ¬ ((pos : Int) < 0) := by omega
  have hpos32 : ¬ ((2 : Int) ^ 32 ≤ (pos : Int)) := by
    push_neg
    have hlt : pos < 2 ^ 32 := by omega
    exact_mod_cast hlt
  constructor
  · intro hsmall
    have hnotbig : ¬ ((2 : Int) ^ 8 ≤ (len : Int)) := not_le.mpr hsmall
    have htn : ((pos : Int)).toNat = pos := Int.toNat_natCast pos
    have hln : ((len : Int)).toNat = len := Int.toNat_natCast len
    have hmod : (pos + len) % 2 ^ 32 = pos + len := by
      apply Nat.mod_eq_of_lt
      omega
    have hcheck : ¬ (ba.bitLen <
        (((pos : Int)).toNat + ((len : Int)).toNat) % 2 ^ 32) := by
      rw [htn, hln, hmod]
      omega
    simp only [pyCopyBits, hlen0, if_false, hpos0, hpos32, hnotbig, hcheck]
    rw [htn, hln]
    rw [clear_copy_writeback ba.bits (bytesToBits data) pos len hdata]
  · intro hbig
    simp only [pyCopyBits, hlen0, if_false, hpos0, hpos32, hbig, if_true]

/-- Witness for C4: writing byte `0x5E` (= bits 3..9 of `0xABCD`) back at
position 3 with length 7 returns the unchanged `BitArray`. -/
theorem copy_bits_writeback_witness :
    pyCopyBits (bitArrayInit (.ofBytes [171, 205])) 3 [94] 7 =
      .ok (bitArrayInit (.ofBytes [171, 205])) :=
  (copy_bits_writeback (bitArrayInit (.ofBytes [171, 205])) 3 7 [94]
    (by decide) (by decide) (by decide)).1 (by decide)

/-! ## Rule deployment (`Device._set_field` and friends, libschc.pyx) -/

/-- The full CDA enum of libSCHC (`CDA` in the Cython declarations). -/
inductive CDAct where
  | notsent
  | valuesent
  | mappingsent
  | lsbAct
  | complength
  | compchk
  | deviid
  | appiid
deriving DecidableEq, Repr

/-- The Python dict describing one field of a compression rule, as consumed
by `Device._set_field` (all numeric members are Python ints; `dir`,
`action` and `MO` are members of the Python enums, so they can only hold
the declared enum values). -/
structure PyFieldDict where
  field : Nat
  moParamLength : Nat
  fieldLength : Nat
  fieldPos : Nat
  dir : Dir
  action : CDAct
  mo : MOp
  targetValue : List Nat
deriving DecidableEq, Repr

/-- The C `struct schc_field` as filled in by `Device._set_field`
(`target_value` is the byte sequence the `memcpy` writes; the C array has
a fixed capacity of MAX_FIELD_LENGTH bytes). -/
structure CField where
  field : Nat
  moParamLength : Nat
  fieldLength : Nat
  fieldPos : Nat
  dir : Dir
  action : CDAct
  mo : MOp
  targetValue : List Nat
deriving DecidableEq, Repr

/-- The number of `target_value` bytes `_set_field` copies:
`BITS_TO_BYTES(field_length)`, multiplied by `MO_param_length` for
match-map fields (libschc.pyx:1632-1637). -/
def targetValueLen (action : CDAct) (mo : MOp) (fieldLength moParam : Nat) :
    Nat :=
  let n := BITS_TO_BYTES fieldLength
  if action = .mappingsent ∨ mo = .moMatchmap then n * moParam else n

/-- `Device._set_field` (libschc.pyx:1616-1639): rejects a `target_value`
longer than MAX_FIELD_LENGTH bytes with `ValueError` (this check does not
depend on the matching operator), casts the numeric members to their C
widths (`OverflowError` when out of range), and `memcpy`s
`targetValueLen` bytes (reads past the end of the Python bytes are
undefined behaviour in C, modelled as zero bytes; `_set_mo_op`'s
unknown-operator branch is unreachable because the Python `MO` enum has
exactly the four operators). -/
def setField (pf : PyFieldDict) : Except PyErr CField :=
  if MAX_FIELD_LENGTH < pf.targetValue.length then .error .valueError
  else if 2 ^ 16 ≤ pf.field then .error .overflowError
  else if 2 ^ 8 ≤ pf.moParamLength then .error .overflowError
  else if 2 ^ 8 ≤ pf.fieldLength then .error .overflowError
  else if 2 ^ 8 ≤ pf.fieldPos then .error .overflowError
  else
    let tvl := targetValueLen pf.action pf.mo pf.fieldLength pf.moParamLength
    .ok { field := pf.field, moParamLength := pf.moParamLength,
          fieldLength := pf.fieldLength, fieldPos := pf.fieldPos,
          dir := pf.dir, action := pf.action, mo := pf.mo,
          targetValue := (List.range tvl).map
            (fun i => pf.targetValue.getD i 0) }

/-- A match-map field dict with a 33-byte target value (33 bytes is within
the claimed MAX_FIELD_LENGTH × MO_param_length = 64-byte bound for
`MO_param_length = 2`). -/
def mmField33 : PyFieldDict :=
  { field := 1, moParamLength := 2, fieldLength := 132, fieldPos := 1,
    dir := .bi, action := .mappingsent, mo := .moMatchmap,
    targetValue := List.replicate 33 0 }

/-- Counterexample to C6: a match-map field whose `target_value` (33
bytes) is within MAX_FIELD_LENGTH × MO_param_length (64 bytes) is
nevertheless rejected with `ValueError` at deploy time — the length check
of `_set_field` is `len(target_value) > MAX_FIELD_LENGTH` regardless of
the matching operator. -/
theorem set_field_matchmap_within_claimed_bound_rejected :
    setField mmField33 = .error .valueError ∧
    mmField33.targetValue.length ≤
      MAX_FIELD_LENGTH * mmField33.moParamLength ∧
    mmField33.mo = .moMatchmap :=
  ⟨rfl, by decide, rfl⟩

/-- C6 (amended): at deploy time `_set_field` accepts a `target_value` of
up to MAX_FIELD_LENGTH bytes — also for match-map fields, whose value set
must fit into the same MAX_FIELD_LENGTH-byte array — and (given in-range
numeric members) a `ValueError` is raised exactly for values exceeding
MAX_FIELD_LENGTH bytes. -/
theorem set_field_accepts_iff_le_max (pf : PyFieldDict)
    (hf : pf.field < 2 ^ 16) (hm : pf.moParamLength < 2 ^ 8)
    (hl : pf.fieldLength < 2 ^ 8) (hp : pf.fieldPos < 2 ^ 8) :
    (pf.targetValue.length ≤ MAX_FIELD_LENGTH →
      ∃ cf, setField pf = .ok cf) ∧
    (MAX_FIELD_LENGTH < pf.targetValue.length →
      setField pf = .error .valueError) := by
  have hf' : ¬ (2 ^ 16 ≤ pf.field) := by omega
  have hm' : ¬ (2 ^ 8 ≤ pf.moParamLength) := by omega
  have hl' : ¬ (2 ^ 8 ≤ pf.fieldLength) := by omega
  have hp' : ¬ (2 ^ 8 ≤ pf.fieldPos) := by omega
  constructor
  · intro hle
    have hno : ¬ (MAX_FIELD_LENGTH < pf.targetValue.length) := by omega
    exact ⟨_, by rw [setField, if_neg hno, if_neg hf', if_neg hm', if_neg hl',
      if_neg hp']⟩
  · intro hgt
    simp only [setField, hgt, if_true]

/-- Witness for the amended C6 at a 32-byte match-map target value. -/
theorem set_field_accepts_witness :
    ∃ cf, setField
      { field := 1, moParamLength := 2, fieldLength := 128, fieldPos := 1,
        dir := .bi, action := .mappingsent, mo := .moMatchmap,
        targetValue := List.replicate 32 7 } = .ok cf :=
  (set_field_accepts_iff_le_max _ (by decide) (by decide) (by decide)
    (by decide)).1 (by decide)

/-- The C layer rule (`schc_layer_rule_t`) as filled by
`Device._set_layer_rule`: the field contents plus the derived `up`/`down`
counts (a BI field counts for both directions). -/
structure CLayerRule where
  content : List CField
  up : Nat
  down : Nat
  length : Nat
deriving DecidableEq, Repr

/-- `Device._set_layer_rule` (libschc.pyx:1641-1666): rejects more than
`maxFields` fields with `ValueError`, fills each field via `_set_field`
(re-raising field errors as `ValueError`; the `OverflowError` of the C
casts is not caught and propagates as-is) and derives the `up`/`down`
counts. -/
def setLayerRule (fields : List PyFieldDict) (maxFields : Nat) :
    Except PyErr CLayerRule :=
  if maxFields < fields.length then .error .valueError
  else
    match fields.mapM setField with
    | .error e => .error e
    | .ok content =>
      .ok { content := content,
            up := (fields.filter
              (fun f => f.dir == Dir.up || f.dir == Dir.bi)).length,
            down := (fields.filter
              (fun f => f.dir == Dir.down || f.dir == Dir.bi)).length,
            length := fields.length }

/-- The Python dict describing one compression rule, as consumed by
`Device._set_compression_rule` (an absent/None layer rule is the empty
list, matching the falsiness test of the Cython code). -/
structure PyCRule where
  ruleId : Nat
  ruleIdSizeBits : Nat
  ipv6Rule : List PyFieldDict
  udpRule : List PyFieldDict
  coapRule : List PyFieldDict
deriving DecidableEq, Repr

/-- The C compression rule (`schc_compression_rule_t`) with its three
optional layer rules. -/
structure CCRule where
  ruleId : Nat
  ruleIdSizeBits : Nat
  ipv6Rule : Option CLayerRule
  udpRule : Option CLayerRule
  coapRule : Option CLayerRule
deriving DecidableEq, Repr

/-- `Device._set_compression_rule` (libschc.pyx:1668-1712): copies the
rule ID members and fills each non-empty layer rule via `_set_layer_rule`
with the per-layer field limits (IP6_FIELDS/UDP_FIELDS/COAP_FIELDS).
The structural layer-rule de-duplication of the source only shares
already-validated layer rules of the same assignment, so it does not
change the validation outcome and is not modelled. -/
def setCompressionRule (r : PyCRule) : Except PyErr CCRule := do
  let ipv6 ← if r.ipv6Rule.isEmpty then pure none
    else some <$> setLayerRule r.ipv6Rule IP6_FIELDS
  let udp ← if r.udpRule.isEmpty then pure none
    else some <$> setLayerRule r.udpRule UDP_FIELDS
  let coap ← if r.coapRule.isEmpty then pure none
    else some <$> setLayerRule r.coapRule COAP_FIELDS
  pure { ruleId := r.ruleId, ruleIdSizeBits := r.ruleIdSizeBits,
         ipv6Rule := ipv6, udpRule := udp, coapRule := coap }

/-- The compression-context part of a `struct schc_device`:
`compression_context` is modelled as the allocation id of the deployed
context (None for NULL) together with `compression_rule_count`. -/
structure DevCompState where
  ctx : Option Nat
  count : Nat
deriving DecidableEq, Repr

/-- Liveness of rule-context allocations: `live` holds the allocation ids
that have been `schc_rules_create_compr_ctx`-allocated and not yet freed
by `schc_rules_free_compr_ctx` (src/src/rules.c). -/
structure RuleHeap where
  live : List Nat
  next : Nat
deriving DecidableEq, Repr

/-- `schc_rules_free_compr_ctx` on allocation `c`: `c` stops being live. -/
def freeCtx (h : RuleHeap) (c : Nat) : RuleHeap :=
  { h with live := h.live.erase c }

/-- `schc_rules_create_compr_ctx`: a fresh live allocation id. -/
def allocCtx (h : RuleHeap) : Nat × RuleHeap :=
  (h.next, { live := h.live ++ [h.next], next := h.next + 1 })

/-- The `Device.compression_rules` setter (libschc.pyx:1765-1786): it
first frees the currently deployed context (if any), then allocates a new
context and validates/fills the new rules into it; on `ValueError` the new
context is freed and the error re-raised, leaving the device's
`compression_context`/`compression_rule_count` members textually
unchanged — still referring to the already-freed old context. -/
def setCompressionRules (st : DevCompState) (h : RuleHeap)
    (rules : List PyCRule) :
    Except PyErr Unit × DevCompState × RuleHeap :=
  let h1 := match st.ctx with
    | some c => freeCtx h c
    | none => h
  if rules.isEmpty then
    (.ok (), { ctx := none, count := 0 }, h1)
  else
    let (cid, h2) := allocCtx h1
    match rules.mapM setCompressionRule with
    | .ok _ => (.ok (), { ctx := some cid, count := rules.length }, h2)
    | .error e => (.error e, st, freeCtx h2 cid)

/-- A malformed rule: its single IPv6 field has a 33-byte target value
(> MAX_FIELD_LENGTH for a non-match-map field), so `_set_field` raises
`ValueError` at deploy time. -/
def badPyRule : PyCRule :=
  { ruleId := 1, ruleIdSizeBits := 8,
    ipv6Rule := [{ field := 1, moParamLength := 0, fieldLength := 264,
                   fieldPos := 1, dir := .bi, action := .notsent,
                   mo := .moEqual, targetValue := List.replicate 33 0 }],
    udpRule := [], coapRule := [] }

/-- C5: assigning a malformed rule set to a device with a deployed
compression context raises `ValueError` and applies none of the new rules
and leaves the `compression_context`/`compression_rule_count` members
unchanged — but the previously deployed context (allocation 0) has already
been freed by the time of the error, so the unchanged `compression_context`
member dangles and the old rules are not usable, contrary to the claim. -/
theorem compression_rules_error_frees_old_context :
    (setCompressionRules { ctx := some 0, count := 1 }
        { live := [0], next := 1 } [badPyRule]).1 =
      .error .valueError ∧
    (setCompressionRules { ctx := some 0, count := 1 }
        { live := [0], next := 1 } [badPyRule]).2.1 =
      { ctx := some 0, count := 1 } ∧
    0 ∉ (setCompressionRules { ctx := some 0, count := 1 }
        { live := [0], next := 1 } [badPyRule]).2.2.live :=
  ⟨rfl, rfl, by decide⟩

/-! ## Device registry (`Device._register`/`Device._unregister`,
libschc.pyx:1502-1538, over the `devices` array and `DEVICE_COUNT` of
`src/src/rules.c`) -/

/-- One registered device: `ref` models the identity of the underlying
`&self._dev` pointer, `devId` its `device_id` member. -/
structure RegDevice where
  ref : Nat
  devId : Nat
deriving DecidableEq, Repr

/-- The global registry: the `devices` array (in order, its length is
`DEVICE_COUNT`) and the Python-side `Device._devices` map (device_id →
pointer identity), modelled as an association list. -/
structure Registry where
  devices : List RegDevice
  pyDevices : List (Nat × Nat)
deriving DecidableEq, Repr

/-- The scan loop of `Device._register`: returns `some (.ok ())` when the
device itself is already present (early `return`), `some (.error ...)`
when another entry has the same `device_id` (the `raise`), `none` when the
loop falls through to the append. -/
def registerScan : List RegDevice → RegDevice → Option (Except PyErr Unit)
  | [], _ => none
  | x :: xs, d =>
    if x.ref = d.ref then some (.ok ())
    else if x.devId = d.devId then some (.error .valueError)
    else registerScan xs d

/-- `Device._register` (libschc.pyx:1502-1522): scan for the device itself
or a duplicate ID; on fall-through grow the array, append the device and
record it in `Device._devices`.  The `raise` happens before any mutation,
so on error the registry is returned unchanged. -/
def registerDevice (reg : Registry) (d : RegDevice) :
    Except PyErr Unit × Registry :=
  match registerScan reg.devices d with
  | some (.ok _) => (.ok (), reg)
  | some (.error e) => (.error e, reg)
  | none =>
    (.ok (), { devices := reg.devices ++ [d],
               pyDevices := (reg.pyDevices.filter
                 (fun p => p.1 ≠ d.devId)) ++ [(d.devId, d.ref)] })

/-- `Device._unregister` (libschc.pyx:1524-1538): remove the first entry
whose `device_id` matches (shifting the rest down, decrementing
`DEVICE_COUNT`) and drop the `Device._devices` entry for that id. -/
def unregisterDevice (reg : Registry) (d : RegDevice) : Registry :=
  { devices :=
      match reg.devices.findIdx? (fun x => x.devId = d.devId) with
      | some i => reg.devices.eraseIdx i
      | none => reg.devices,
    pyDevices := reg.pyDevices.filter (fun p => p.1 ≠ d.devId) }

/-- A registration or unregistration step. -/
inductive RegOp where
  | reg (d : RegDevice)
  | unreg (d : RegDevice)

/-- Apply a sequence of registry operations starting from the empty
registry (`devices = NULL`, `DEVICE_COUNT = 0` in `src/src/rules.c`). -/
def applyRegOps : List RegOp → Registry
  | [] => { devices := [], pyDevices := [] }
  | op :: ops =>
    let reg := applyRegOps ops
    match op with
    | .reg d => (registerDevice reg d).2
    | .unreg d => unregisterDevice reg d

/-- The registry ids are pairwise distinct. -/
def uniqueIds (reg : Registry) : Prop :=
  (reg.devices.map RegDevice.devId).Nodup

instance (reg : Registry) : Decidable (uniqueIds reg) := by
  unfold uniqueIds
  infer_instance

theorem registerScan_none_sound {l : List RegDevice} {d : RegDevice}
    (h : registerScan l d = none) :
    ∀ x ∈ l, x.ref ≠ d.ref ∧ x.devId ≠ d.devId := by
  induction l with
  | nil => intro x hx; cases hx
  | cons a as ih =>
    intro x hx
    by_cases h1 : a.ref = d.ref
    · simp [registerScan, h1] at h
    · by_cases h2 : a.devId = d.devId
      · simp [registerScan, h1, h2] at h
      · rcases List.mem_cons.mp hx with rfl | hx'
        · exact ⟨h1, h2⟩
        · have h' : registerScan as d = none := by
            simpa [registerScan, h1, h2] using h
          exact ih h' x hx'

theorem registerScan_finds_duplicate {l : List RegDevice} {d : RegDevice}
    (hdup : ∃ x ∈ l, x.devId = d.devId)
    (hfresh : ∀ x ∈ l, x.ref ≠ d.ref) :
    registerScan l d = some (.error .valueError) := by
  induction l with
  | nil => rcases hdup with ⟨x, hx, _⟩; cases hx
  | cons a as ih =>
    have hne : a.ref ≠ d.ref := hfresh a (by simp)
    by_cases h2 : a.devId = d.devId
    · simp [registerScan, hne, h2]
    · rcases hdup with ⟨x, hx, hxid⟩
      rcases List.mem_cons.mp hx with rfl | hx'
      · exact absurd hxid h2
      · simp only [registerScan, hne, if_false, h2]
        exact ih ⟨x, hx', hxid⟩ (fun y hy => hfresh y (by simp [hy]))

theorem uniqueIds_register (reg : Registry) (d : RegDevice)
    (h : uniqueIds reg) : uniqueIds (registerDevice reg d).2 := by
  unfold registerDevice
  cases hscan : registerScan reg.devices d with
  | none =>
    have hall := registerScan_none_sound hscan
    simp only [uniqueIds, List.map_append, List.map_cons, List.map_nil]
    rw [List.nodup_append]
    refine ⟨h, List.nodup_singleton _, ?_⟩
    intro x hx hy
    rcases List.mem_map.mp hx with ⟨z, hz, rfl⟩
    exact (hall z hz).2 (List.mem_singleton.mp hy)
  | some e =>
    cases e with
    | ok u => simpa using h
    | error e => simpa using h

theorem uniqueIds_unregister (reg : Registry) (d : RegDevice)
    (h : uniqueIds reg) : uniqueIds (unregisterDevice reg d) := by
  unfold unregisterDevice uniqueIds
  cases hidx : reg.devices.findIdx? (fun x => x.devId = d.devId) with
  | none => exact h
  | some i =>
    simp only
    have hsub : (reg.devices.eraseIdx i).Sublist reg.devices :=
      List.eraseIdx_sublist reg.devices i
    exact (hsub.map RegDevice.devId).nodup h

/-- C7: over every sequence of registrations and unregistrations (from the
initially empty registry), no two live devices share a `device_id`; and
registering a fresh `Device` object whose id is already taken raises
`ValueError` and leaves the whole registry (devices array, its count, and
`Device._devices`) unchanged. -/
theorem device_registry_unique (ops : List RegOp) (d : RegDevice)
    (hdup : ∃ x ∈ (applyRegOps ops).devices, x.devId = d.devId)
    (hfresh : ∀ x ∈ (applyRegOps ops).devices, x.ref ≠ d.ref) :
    uniqueIds (applyRegOps ops) ∧
    registerDevice (applyRegOps ops) d =
      (.error .valueError, applyRegOps ops) := by
  have huniq : ∀ ops' : List RegOp, uniqueIds (applyRegOps ops') := by
    intro ops'
    induction ops' with
    | nil => simp [applyRegOps, uniqueIds]
    | cons op ops' ih =>
      cases op with
      | reg x => exact uniqueIds_register _ x ih
      | unreg x => exact uniqueIds_unregister _ x ih
  refine ⟨huniq ops, ?_⟩
  unfold registerDevice
  rw [registerScan_finds_duplicate hdup hfresh]

/-- Witness for C7: after registering device (ref 0, id 5), registering a
fresh device object (ref 1) with the same id 5 fails and leaves the
registry unchanged. -/
theorem device_registry_unique_witness :
    uniqueIds (applyRegOps [.reg ⟨0, 5⟩]) ∧
    registerDevice (applyRegOps [.reg ⟨0, 5⟩]) ⟨1, 5⟩ =
      (.error .valueError, applyRegOps [.reg ⟨0, 5⟩]) :=
  device_registry_unique [.reg ⟨0, 5⟩] ⟨1, 5⟩ (by decide) (by decide)

/-! ## CompressorDecompressor wrapper (libschc.pyx:1899-1968)

`schc_compress`/`schc_decompress` themselves are not under the sources;
the wrapper is embedded with the engine as a function parameter, so a
property proved for every engine holds independently of the engine — in
particular, an error result that holds for every engine shows the engine
is never consulted. -/

/-- Result enum of `CompressorDecompressor.compress`. -/
inductive CompressionResult where
  | uncompressed
  | compressed
deriving DecidableEq, Repr

/-- The device members the compressor wrapper reads. -/
structure WrapDevice where
  deviceId : Nat
  uncompRuleIdSizeBits : Nat
deriving DecidableEq, Repr

/-- Abstraction of `schc_compress`: data bytes, device id and direction
to the returned rule (None for NULL) and the mutated bit array. -/
def CompressEngine : Type :=
  List Nat → Nat → Dir → PyBitArray → Option Nat × PyBitArray

/-- Abstraction of `schc_decompress`: bit array, device id and direction
to the returned length and the filled MAX_MTU_LENGTH buffer. -/
def DecompressEngine : Type :=
  PyBitArray → Nat → Dir → Nat × List Nat

/-- The body of `CompressorDecompressor.compress` after the direction
check (libschc.pyx:1924-1941): allocate a bit array of
`len(data) + BITS_TO_BYTES(uncompressed_rule_id_size_bits)` bytes, call
the engine, raise `ValueError` when no rule was used and the output is
empty, otherwise report UNCOMPRESSED/COMPRESSED. -/
def compressBody (engine : CompressEngine) (data : List Nat)
    (dev : WrapDevice) (dir : Dir) :
    Except PyErr (CompressionResult × PyBitArray) :=
  let bitArr := bitArrayInit
    (.ofNat (data.length + BITS_TO_BYTES dev.uncompRuleIdSizeBits))
  match engine data dev.deviceId dir bitArr with
  | (none, outArr) =>
    if outArr.len = 0 then .error .valueError
    else .ok (.uncompressed, outArr)
  | (some _, outArr) => .ok (.compressed, outArr)

/-- `CompressorDecompressor.compress` (libschc.pyx:1899-1941): reject
direction BI with `ValueError` before doing anything else. -/
def pyCompress (engine : CompressEngine) (data : List Nat)
    (dev : WrapDevice) (dir : Dir) :
    Except PyErr (CompressionResult × PyBitArray) :=
  if dir = .bi then .error .valueError
  else compressBody engine data dev dir

/-- The body of `CompressorDecompressor.decompress` after the direction
check (libschc.pyx:1960-1968): call the engine on a zeroed
MAX_MTU_LENGTH buffer and return the first `length` result bytes. -/
def decompressBody (engine : DecompressEngine) (bitArr : PyBitArray)
    (dev : WrapDevice) (dir : Dir) : Except PyErr (List Nat) :=
  let (length, buf) := engine bitArr dev.deviceId dir
  .ok (buf.take length)

/-- `CompressorDecompressor.decompress` (libschc.pyx:1943-1968): reject
direction BI with `ValueError` before calling the engine. -/
def pyDecompress (engine : DecompressEngine) (bitArr : PyBitArray)
    (dev : WrapDevice) (dir : Dir) : Except PyErr (List Nat) :=
  if dir = .bi then .error .valueError
  else decompressBody engine bitArr dev dir

/-- C2: for every engine, input and device, `compress`/`decompress` with
direction BI return `ValueError` without consulting the engine (the
result is the same for every engine), while UP and DOWN fall through to
the engine-calling bodies. -/
theorem compress_decompress_reject_bi (ec : CompressEngine)
    (ed : DecompressEngine) (data : List Nat) (dev : WrapDevice)
    (ba : PyBitArray) :
    pyCompress ec data dev .bi = .error .valueError ∧
    pyDecompress ed ba dev .bi = .error .valueError ∧
    pyCompress ec data dev .up = compressBody ec data dev .up ∧
    pyCompress ec data dev .down = compressBody ec data dev .down ∧
    pyDecompress ed ba dev .up = decompressBody ed ba dev .up ∧
    pyDecompress ed ba dev .down = decompressBody ed ba dev .down :=
  ⟨rfl, rfl, rfl, rfl, rfl, rfl⟩

/-! ## FragmentationConnection (libschc.pyx:2065-2500) -/

/-- The members of `schc_fragmentation_t` (plus wrapper state) that the
`_input` path reads: whether `self._frag_conn` is non-NULL and the
connection's `device_id`. -/
structure FragConnState where
  allocated : Bool
  deviceId : Nat
deriving DecidableEq, Repr

/-- Abstraction of `schc_input` (not under the sources): buffer and
connection to the resulting connection (None models a NULL return, i.e.
RX-connection allocation failure). -/
def InputEngine : Type :=
  List Nat → FragConnState → Option FragConnState

/-- `FragmentationConnection._input`/`input` (libschc.pyx:2399-2456):
assert the inner connection exists; when its `device_id` is 0 (connection
already finalized, e.g. the last ACK arrived as a duplicate) log and
return None without calling `schc_input`; otherwise hand the buffer to
`schc_input` and wrap its result. -/
def pyFragInput (engine : InputEngine) (conn : FragConnState)
    (buf : List Nat) :
    Except PyErr (Option FragConnState × FragConnState) :=
  if conn.allocated = false then .error .assertionError
  else if conn.deviceId = 0 then .ok (none, conn)
  else
    match engine buf conn with
    | none => .error .memoryError
    | some c => .ok (some c, c)

/-- C8: on a connection whose `device_id` is 0, `input` returns None for
every buffer and every engine — `schc_input` is never consulted (the
result does not depend on the engine) and the connection state is
returned unchanged. -/
theorem input_finalized_noop (conn : FragConnState) (buf : List Nat)
    (halloc : conn.allocated = true) (hdev : conn.deviceId = 0) :
    ∀ engine : InputEngine,
      pyFragInput engine conn buf = .ok (none, conn) := by
  intro engine
  simp [pyFragInput, halloc, hdev]

/-- Witness for C8 on a concrete finalized connection. -/
theorem input_finalized_noop_witness :
    pyFragInput (fun _ c => some c) { allocated := true, deviceId := 0 }
      [1, 2, 3] = .ok (none, { allocated := true, deviceId := 0 }) :=
  input_finalized_noop { allocated := true, deviceId := 0 } [1, 2, 3]
    rfl rfl (fun _ c => some c)

/-- Reliability modes (`reliability_mode` of libSCHC). -/
inductive FragMode where
  | ackAlways
  | ackOnError
  | noAck
  | notFragmented
deriving DecidableEq, Repr

/-- The members `_reassemble` reads: the inner connection, its bound
fragmentation rule (only the mode matters) and whether the wrapper's
`ops.end_rx` callback is set. -/
structure RxConnState where
  allocated : Bool
  rule : Option FragMode
  hasOpsEndRx : Bool
deriving DecidableEq, Repr

/-- Observable wrapper effects of `_reassemble`. -/
inductive RxEvent where
  | endRx
  | reset
deriving DecidableEq, Repr

/-- `FragmentationConnection._reassemble` (libschc.pyx:2458-2486) with
`schc_reassemble`'s return status abstracted as the parameter `res`
(`schc_reassemble` is not under the sources; it is modelled as returning
a status without rebinding the connection's fragmentation rule): after the
asserts, when the status is non-zero and the rule's mode is NO_ACK, call
`ops.end_rx` (when set) and then `reset()` before returning the status. -/
def pyReassemble (conn : RxConnState) (res : Int) :
    Except PyErr (Int × List RxEvent) :=
  if conn.allocated = false then .error .assertionError
  else
    match conn.rule with
    | none => .error .assertionError
    | some mode =>
      if res ≠ 0 ∧ mode = .noAck then
        .ok (res, (if conn.hasOpsEndRx then [RxEvent.endRx] else []) ++
          [RxEvent.reset])
      else .ok (res, [])

/-- C10: on a NO_ACK connection with an `end_rx` callback, a non-zero
engine status (COMPLETED or STAY_ALIVE) makes `reassemble` fire `end_rx`
exactly once and then reset the connection before returning the status,
while status 0 (ONGOING) fires neither. -/
theorem reassemble_noack_end_rx (conn : RxConnState) (res : Int)
    (halloc : conn.allocated = true)
    (hrule : conn.rule = some FragMode.noAck)
    (hcb : conn.hasOpsEndRx = true) :
    (res ≠ 0 →
      pyReassemble conn res = .ok (res, [RxEvent.endRx, RxEvent.reset])) ∧
    (res = 0 → pyReassemble conn res = .ok (res, [])) := by
  constructor
  · intro hres
    simp [pyReassemble, halloc, hrule, hres, hcb]
  · intro hres
    simp [pyReassemble, halloc, hrule, hres]

/-- Witness for C10: COMPLETED (status 1) on a concrete NO_ACK
connection fires `end_rx` then `reset`. -/
theorem reassemble_noack_end_rx_witness :
    pyReassemble
      { allocated := true, rule := some FragMode.noAck,
        hasOpsEndRx := true } 1 =
      .ok (1, [RxEvent.endRx, RxEvent.reset]) :=
  (reassemble_noack_end_rx
    { allocated := true, rule := some FragMode.noAck, hasOpsEndRx := true }
    1 rfl rfl rfl).1 (by decide)

end PySchc
